import Mathlib

/-!
Verification of the proposal-generator web application (src/app.py).

The application is a small Flask service with three filesystem areas
(modules = the upload folder, covers, exports), a cover-page generator
built on reportlab, and an export endpoint that concatenates PDF pages
with pypdf.  This file gives a shallow embedding of its operations:

* Python string primitives (`lower().endswith('.pdf')`, `str.split()`,
  `os.path.splitext`, `sorted`) are modelled on `List Char` so that all
  definitions evaluate inside the kernel.
* `upload_files` (src/app.py lines 193-210): the sanitize/collision loop.
* `list_modules` (lines 34-40): sort-then-filter of the upload folder.
* `generate_cover_pdf` (lines 43-178): the drawing calls are modelled as
  a list of `DrawOp` values; the reportlab canvas primitives
  (`stringWidth`, image sizes) are parameters of a `CoverEnv`.
* `export_pdf` (lines 225-254): page concatenation over an abstract
  filesystem, plus a path-resolution model for the traversal question.

Machine arithmetic does not occur (Python integers are unbounded and the
geometry is exact decimal arithmetic, modelled in `ℚ`).
-/

/-! ### Python string primitives -/

/-- Case-folded character data of a string: models Python `s.lower()`
(ASCII-faithful; `Char.toLower` lowercases exactly the ASCII range). -/
def lowerData (s : String) : List Char :=
  s.data.map Char.toLower

/-- Models `fname.lower().endswith('.pdf')` from src/app.py (lines 38, 198,
242). -/
def endsWithPdf (s : String) : Bool :=
  decide (".pdf".data <:+ lowerData s)

/-- Lexicographic code-point comparison of character lists: the order used
by Python string comparison (and hence by `sorted` on filenames). -/
def charListLe : List Char → List Char → Bool
  | [], _ => true
  | _ :: _, [] => false
  | a :: as, b :: bs =>
    if a.toNat < b.toNat then true
    else if b.toNat < a.toNat then false
    else charListLe as bs

/-- Python string order `a <= b` (code-point lexicographic). -/
def pyStrLe (a b : String) : Prop :=
  charListLe a.data b.data = true

instance : DecidableRel pyStrLe := by
  intro a b
  unfold pyStrLe
  infer_instance

theorem charListLe_total : ∀ a b : List Char, charListLe a b = true ∨ charListLe b a = true := by
  intro a
  induction a with
  | nil => intro b; left; rfl
  | cons x xs ih =>
    intro b
    cases b with
    | nil => right; rfl
    | cons y ys =>
      by_cases hxy : x.toNat < y.toNat
      · left; simp [charListLe, hxy]
      · by_cases hyx : y.toNat < x.toNat
        · right; simp [charListLe, hyx]
        · have hx : ¬ y.toNat < x.toNat := hyx
          rcases ih ys with h | h
          · left; simp [charListLe, hxy, hyx, h]
          · right; simp [charListLe, hxy, hyx, h]

theorem charListLe_trans : ∀ a b c : List Char,
    charListLe a b = true → charListLe b c = true → charListLe a c = true := by
  intro a
  induction a with
  | nil => intro b c _ _; rfl
  | cons x xs ih =>
    intro b c hab hbc
    cases b with
    | nil => simp [charListLe] at hab
    | cons y ys =>
      cases c with
      | nil => simp [charListLe] at hbc
      | cons z zs =>
        simp only [charListLe] at hab hbc ⊢
        by_cases hxy : x.toNat < y.toNat
        · by_cases hyz : y.toNat < z.toNat
          · simp [Nat.lt_trans hxy hyz]
          · by_cases hzy : z.toNat < y.toNat
            · simp [hyz, hzy] at hbc
            · have : y.toNat = z.toNat := Nat.le_antisymm (Nat.le_of_not_lt hzy) (Nat.le_of_not_lt hyz)
              simp [this ▸ hxy]
        · by_cases hyx : y.toNat < x.toNat
          · simp [hxy, hyx] at hab
          · have hxyeq : x.toNat = y.toNat := Nat.le_antisymm (Nat.le_of_not_lt hyx) (Nat.le_of_not_lt hxy)
            simp only [hxy, if_false, hyx, if_false] at hab
            by_cases hyz : y.toNat < z.toNat
            · simp [hxyeq ▸ hyz]
            · by_cases hzy : z.toNat < y.toNat
              · simp [hyz, hzy] at hbc
              · simp only [hyz, if_false, hzy, if_false] at hbc
                have h1 : ¬ x.toNat < z.toNat := by omega
                have h2 : ¬ z.toNat < x.toNat := by omega
                simp [h1, h2, ih ys zs hab hbc]

theorem charListLe_antisymm : ∀ a b : List Char,
    charListLe a b = true → charListLe b a = true → a = b := by
  intro a
  induction a with
  | nil =>
    intro b _ hba
    cases b with
    | nil => rfl
    | cons y ys => simp [charListLe] at hba
  | cons x xs ih =>
    intro b hab hba
    cases b with
    | nil => simp [charListLe] at hab
    | cons y ys =>
      simp only [charListLe] at hab hba
      by_cases hxy : x.toNat < y.toNat
      · have : ¬ y.toNat < x.toNat := by omega
        simp [hxy, this] at hba
      · by_cases hyx : y.toNat < x.toNat
        · simp [hxy, hyx] at hab
        · have hx : x = y := by
            have hnat : x.toNat = y.toNat := Nat.le_antisymm (Nat.le_of_not_lt hyx) (Nat.le_of_not_lt hxy)
            exact Char.eq_of_val_eq (UInt32.ext hnat)
          simp only [hxy, if_false, hyx, if_false] at hab hba
          rw [hx, ih ys hab hba]

instance : IsTotal String pyStrLe :=
  ⟨fun a b => charListLe_total a.data b.data⟩

instance : IsTrans String pyStrLe :=
  ⟨fun a b c => charListLe_trans a.data b.data c.data⟩

theorem pyStrLe_antisymm {a b : String} (hab : pyStrLe a b) (hba : pyStrLe b a) : a = b :=
  String.ext (charListLe_antisymm a.data b.data hab hba)

instance : IsAntisymm String pyStrLe :=
  ⟨fun _ _ => pyStrLe_antisymm⟩

/-! ### Decimal representation: `Nat.repr` is injective

`Nat.repr n` is `(Nat.toDigits 10 n).asString`; we recover `n` from the
digit list to conclude injectivity (needed for the upload collision
suffixes `_1`, `_2`, ... of `upload_files`). -/

/-- Decimal value of a digit-character list, starting from `acc`. -/
def decVal (acc : Nat) (l : List Char) : Nat :=
  l.foldl (fun a c => a * 10 + (c.toNat - 48)) acc

theorem decVal_cons (acc : Nat) (c : Char) (l : List Char) :
    decVal acc (c :: l) = decVal (acc * 10 + (c.toNat - 48)) l := rfl

theorem digitChar_val {d : Nat} (h : d < 10) : (Nat.digitChar d).toNat - 48 = d := by
  interval_cases d <;> decide

theorem toDigitsCore_val (n : Nat) : ∀ fuel : Nat, n < fuel → ∀ ds : List Char,
    decVal 0 (Nat.toDigitsCore 10 fuel n ds) = decVal n ds := by
  induction n using Nat.strong_induction_on with
  | _ n ih =>
    intro fuel hfuel ds
    cases fuel with
    | zero => omega
    | succ f =>
      show decVal 0 (Nat.toDigitsCore 10 (f + 1) n ds) = decVal n ds
      rw [Nat.toDigitsCore]
      by_cases h0 : n / 10 = 0
      · have hn : n < 10 := by
          rcases Nat.lt_or_ge n 10 with h | h
          · exact h
          · exact absurd h0 (Nat.div_pos h (by norm_num)).ne'
        simp only [h0, if_true]
        rw [decVal_cons, digitChar_val (Nat.mod_lt n (by norm_num))]
        have : n % 10 = n := Nat.mod_eq_of_lt hn
        rw [this]
        simp [decVal]
      · simp only [h0, if_false]
        have hlt : n / 10 < n := Nat.div_lt_self (Nat.pos_of_ne_zero (by
          intro hz; rw [hz] at h0; exact h0 rfl)) (by norm_num)
        have hfl : n / 10 < f := by omega
        rw [ih (n / 10) hlt f hfl]
        rw [decVal_cons, digitChar_val (Nat.mod_lt n (by norm_num))]
        congr 1
        omega

theorem decVal_toDigits (n : Nat) : decVal 0 (Nat.toDigits 10 n) = n := by
  have := toDigitsCore_val n (n + 1) (Nat.lt_succ_self n) []
  simpa [Nat.toDigits, decVal] using this

theorem asString_inj {l m : List Char} (h : l.asString = m.asString) : l = m := by
  simpa [List.asString] using congrArg String.data h

theorem repr_inj {n m : Nat} (h : Nat.repr n = Nat.repr m) : n = m := by
  have hd : Nat.toDigits 10 n = Nat.toDigits 10 m := asString_inj h
  have := decVal_toDigits n
  rw [hd, decVal_toDigits m] at this
  exact this.symm

theorem repr_data (n : Nat) : (Nat.repr n).data = Nat.toDigits 10 n := rfl

/-! ### os.path.splitext and the upload collision loop (src/app.py 193-210) -/

/-- Index of the last dot of a name, as in CPython `str.rfind('.')`. -/
def lastDotIdx (l : List Char) : Option Nat :=
  match l.reverse.findIdx? (· == '.') with
  | none => none
  | some i => some (l.length - 1 - i)

/-- Models `os.path.splitext` for plain names (no directory separator, which
`secure_filename` has already removed): split at the last dot unless every
character before it is itself a dot (so `.bashrc` has no extension). -/
def pySplitext (p : String) : String × String :=
  match lastDotIdx p.data with
  | none => (p, "")
  | some i =>
    if (p.data.take i).all (fun c => c == '.') then (p, "")
    else ((p.data.take i).asString, (p.data.drop i).asString)

theorem pySplitext_append (p : String) : (pySplitext p).1 ++ (pySplitext p).2 = p := by
  unfold pySplitext
  cases h : lastDotIdx p.data with
  | none => exact String.ext (by simp [String.data_append])
  | some i =>
    by_cases hall : (p.data.take i).all (fun c => c == '.')
    · simp only [hall, if_true]
      exact String.ext (by simp [String.data_append])
    · simp only [hall, if_false]
      refine String.ext ?_
      simp only [String.data_append, List.asString]
      exact List.take_append_drop i p.data

/-- Candidate name `f"{base}_{counter}{ext}"` from the collision loop. -/
def cand (base ext : String) (n : Nat) : String :=
  base ++ "_" ++ Nat.repr n ++ ext

theorem cand_data (base ext : String) (n : Nat) :
    (cand base ext n).data = base.data ++ '_' :: ((Nat.repr n).data ++ ext.data) := by
  simp [cand, String.data_append]

theorem cand_inj {base ext : String} {n m : Nat} (h : cand base ext n = cand base ext m) :
    n = m := by
  have hd := congrArg String.data h
  rw [cand_data, cand_data] at hd
  have h1 := List.append_cancel_left hd
  have h2 : (Nat.repr n).data ++ ext.data = (Nat.repr m).data ++ ext.data := by
    injection h1
  have h3 : (Nat.repr n).data = (Nat.repr m).data := List.append_cancel_right h2
  exact repr_inj (String.ext h3)

theorem cand_ne_self {base ext filename : String} (hre : base ++ ext = filename) (n : Nat) :
    cand base ext n ≠ filename := by
  intro h
  have hd := congrArg String.data h
  rw [cand_data] at hd
  have hfd : filename.data = base.data ++ ext.data := by
    rw [← hre]; simp [String.data_append]
  rw [hfd] at hd
  have := List.append_cancel_left hd
  have hlen := congrArg List.length this
  simp [List.length_append] at hlen
  omega

/-- The collision loop of `upload_files`:
`while os.path.exists(...): unique = f"{base}_{counter}{ext}"; counter += 1`.
Fuel is explicit; `existing.length + 1` steps provably suffice. -/
def uniqueLoop (existing : List String) (base ext : String) : Nat → Nat → String → String
  | 0, _, unique => unique
  | fuel + 1, counter, unique =>
    if unique ∈ existing then
      uniqueLoop existing base ext fuel (counter + 1) (cand base ext counter)
    else unique

/-- Final stored name for `filename` given the files `existing` already in the
modules area (src/app.py lines 202-207). -/
def unique_name (existing : List String) (filename : String) : String :=
  uniqueLoop existing (pySplitext filename).1 (pySplitext filename).2
    (existing.length + 1) 1 filename

/-- The sequence of candidates the loop inspects, starting from a given
counter and current name. -/
def seqFrom (base ext : String) (counter : Nat) (unique : String) : Nat → String
  | 0 => unique
  | k + 1 => cand base ext (counter + k)

theorem seqFrom_shift (base ext : String) (counter : Nat) (unique : String) (j : Nat) :
    seqFrom base ext (counter + 1) (cand base ext counter) j =
      seqFrom base ext counter unique (j + 1) := by
  cases j with
  | zero => simp [seqFrom]
  | succ k =>
    show cand base ext (counter + 1 + k) = cand base ext (counter + (k + 1))
    congr 1
    omega

theorem uniqueLoop_spec (existing : List String) (base ext : String) :
    ∀ fuel counter unique k, k < fuel →
      (∀ j < k, seqFrom base ext counter unique j ∈ existing) →
      seqFrom base ext counter unique k ∉ existing →
      uniqueLoop existing base ext fuel counter unique =
        seqFrom base ext counter unique k := by
  intro fuel
  induction fuel with
  | zero => intro counter unique k hk; omega
  | succ f ih =>
    intro counter unique k hk hbefore hfree
    show (if unique ∈ existing then
        uniqueLoop existing base ext f (counter + 1) (cand base ext counter)
      else unique) = _
    by_cases hmem : unique ∈ existing
    · simp only [hmem, if_true]
      cases k with
      | zero => exact absurd hmem hfree
      | succ k' =>
        have h1 : k' < f := by omega
        have h2 : ∀ j < k', seqFrom base ext (counter + 1) (cand base ext counter) j ∈ existing := by
          intro j hj
          rw [seqFrom_shift base ext counter unique j]
          exact hbefore (j + 1) (by omega)
        have h3 : seqFrom base ext (counter + 1) (cand base ext counter) k' ∉ existing := by
          rw [seqFrom_shift base ext counter unique k']
          exact hfree
        rw [ih (counter + 1) (cand base ext counter) k' h1 h2 h3]
        exact seqFrom_shift base ext counter unique k'
    · simp only [hmem, if_false]
      cases k with
      | zero => rfl
      | succ k' => exact absurd (hbefore 0 (by omega)) hmem

theorem exists_free_index (existing : List String) (f : Nat → String)
    (hinj : ∀ a b, f a = f b → a = b) :
    ∃ k, k ≤ existing.length ∧ f k ∉ existing := by
  by_contra hcon
  push_neg at hcon
  have hall : ∀ k ≤ existing.length, f k ∈ existing := hcon
  have hnodup : ((List.range (existing.length + 1)).map f).Nodup :=
    List.Nodup.map_on (fun x _ y _ h => hinj x y h) (List.nodup_range _)
  have hsub : ((List.range (existing.length + 1)).map f).toFinset ⊆ existing.toFinset := by
    intro x hx
    rw [List.mem_toFinset] at hx ⊢
    rcases List.mem_map.mp hx with ⟨k, hk, rfl⟩
    exact hall k (by simpa [Nat.lt_succ_iff] using List.mem_range.mp hk)
  have hcard := Finset.card_le_card hsub
  rw [List.toFinset_card_of_nodup hnodup] at hcard
  have h1 : ((List.range (existing.length + 1)).map f).length = existing.length + 1 := by
    simp
  rw [h1] at hcard
  have h2 := List.toFinset_card_le existing
  omega

theorem seqFrom_inj {base ext filename : String} (hre : base ++ ext = filename) :
    ∀ a b, seqFrom base ext 1 filename a = seqFrom base ext 1 filename b → a = b := by
  intro a b h
  cases a with
  | zero =>
    cases b with
    | zero => rfl
    | succ k => exact absurd h.symm (cand_ne_self hre (1 + k))
  | succ j =>
    cases b with
    | zero => exact absurd h (cand_ne_self hre (1 + j))
    | succ k =>
      have := cand_inj h
      omega

/-- First-free characterisation of `unique_name`. -/
theorem unique_name_eq_find (existing : List String) (filename : String)
    (H : ∃ k, seqFrom (pySplitext filename).1 (pySplitext filename).2 1 filename k ∉ existing) :
    unique_name existing filename =
      seqFrom (pySplitext filename).1 (pySplitext filename).2 1 filename (Nat.find H) := by
  have hbound : Nat.find H ≤ existing.length := by
    rcases exists_free_index existing
        (seqFrom (pySplitext filename).1 (pySplitext filename).2 1 filename)
        (seqFrom_inj (pySplitext_append filename)) with ⟨k, hk, hfree⟩
    exact le_trans (Nat.find_min' H hfree) hk
  refine uniqueLoop_spec existing _ _ (existing.length + 1) 1 filename (Nat.find H)
    (by omega) ?_ (Nat.find_spec H)
  intro j hj
  have := Nat.find_min H hj
  simpa using this

/-- The `/upload` handler (src/app.py lines 193-210): for each incoming file,
skip it unless its name ends in `.pdf` (case-insensitive), sanitize the name
(`secure_filename`, an external library routine abstracted as `sf`), resolve
collisions against the current folder contents, write, and record the stored
name.  Returns the final folder contents and the `saved` list. -/
def upload_files (sf : String → String) (existing : List String)
    (uploads : List String) : List String × List String :=
  uploads.foldl
    (fun acc f =>
      if endsWithPdf f then
        (acc.1 ++ [unique_name acc.1 (sf f)], acc.2 ++ [unique_name acc.1 (sf f)])
      else acc)
    (existing, [])

/-! ### list_modules (src/app.py lines 34-40) -/

/-- Models `list_modules`: `sorted(os.listdir(UPLOAD_FOLDER))` filtered to names
ending in `.pdf` case-insensitively.  `entries` is the directory listing;
Python's `sorted` is modelled by insertion sort under the code-point order
(on a linear order every sorting algorithm returns the same list). -/
def list_modules (entries : List String) : List String :=
  (List.insertionSort pyStrLe entries).filter endsWithPdf

/-! ### Cover geometry (src/app.py lines 43-178)

US-Letter page from `reportlab.lib.pagesizes.letter` and the 72-point inch,
in exact rational arithmetic. -/

def pageW : ℚ := 612

def pageH : ℚ := 792

def inch : ℚ := 72

/-- One drawing primitive issued to the reportlab canvas.  Fill colour and
font state are recorded on the op that uses them. -/
inductive DrawOp where
  | image (name : String) (x y w h : ℚ)
  | rect (x y w h : ℚ) (color : String)
  | poly (pts : List (ℚ × ℚ)) (color : String)
  | textL (font : String) (size : ℚ) (color : String) (x y : ℚ) (content : String)
  | textR (font : String) (size : ℚ) (color : String) (x y : ℚ) (content : String)
  deriving DecidableEq

/-- Ambient inputs of `generate_cover_pdf` that come from outside the
function: the optional static images with their pixel sizes, the reportlab
font metric `stringWidth(text, font, size)`, and the three brand colours
(environment variables with defaults, src/app.py lines 25-27). -/
structure CoverEnv where
  bgSize : Option (ℚ × ℚ)
  logoSize : Option (ℚ × ℚ)
  stringWidth : String → String → ℚ → ℚ
  brandBlue : String
  orange : String
  grey : String

/-- Background block (lines 57-75): scale `background.png` to 65% of the
page height, widen to full page width if needed; grey upper-half rectangle
when the asset is absent. -/
def bgOps (env : CoverEnv) : List DrawOp :=
  match env.bgSize with
  | some (imgW, imgH) =>
    let aspect := imgH / imgW
    let drawH := pageH * 0.65
    let drawW := drawH / aspect
    if drawW < pageW then
      [DrawOp.image "background.png" 0 (pageH - pageW * aspect) pageW (pageW * aspect)]
    else
      [DrawOp.image "background.png" 0 (pageH - drawH) drawW drawH]
  | none =>
    [DrawOp.rect 0 (pageH * 0.5) pageW (pageH * 0.5) env.grey]

/-- Blue angled header polygon (lines 77-89). -/
def bannerOps (env : CoverEnv) : List DrawOp :=
  [DrawOp.poly [(0, pageH), (pageW, pageH), (pageW, pageH - pageH * 0.25),
    (0, pageH - pageH * 0.35)] env.brandBlue]

/-- Bottom-left orange triangle (lines 91-100). -/
def accentOps (env : CoverEnv) : List DrawOp :=
  [DrawOp.poly [(0, 0), (pageW * 0.3, 0), (0, pageH * 0.12)] env.orange]

/-- Scale factor applied to the logo (lines 107-110):
`min(max_w / logo_width, max_h / logo_height)` with no cap at 1. -/
def logoScale (lw lh : ℚ) : ℚ :=
  min (pageW * 0.2 / lw) (pageH * 0.15 / lh)

/-- Drawn logo width `lw * scale` (line 111). -/
def logoDrawnW (lw lh : ℚ) : ℚ := lw * logoScale lw lh

/-- Drawn logo height `lh * scale` (line 112). -/
def logoDrawnH (lw lh : ℚ) : ℚ := lh * logoScale lw lh

/-- Logo placement (lines 102-113); nothing when `logo.png` is absent. -/
def logoOps (env : CoverEnv) : List DrawOp :=
  match env.logoSize with
  | some (lw, lh) =>
    [DrawOp.image "logo.png" (inch * 0.5) (pageH - logoDrawnH lw lh - inch * 0.5)
      (logoDrawnW lw lh) (logoDrawnH lw lh)]
  | none => []

/-! ### Greedy title word-wrap (src/app.py lines 119-131) -/

/-- Models `f"{current_line} {word}".strip()` for words without surrounding
whitespace: the strip only matters when the current line is empty. -/
def joinWord (current word : String) : String :=
  if current = "" then word else current ++ " " ++ word

/-- The wrap loop: accumulate the word while the candidate line measures
under the threshold, otherwise commit the current line and restart from the
overflowing word; the trailing non-empty line is committed at the end. -/
def wrapGo (w : String → ℚ) (maxW : ℚ) : String → List String → List String
  | current, [] => if current = "" then [] else [current]
  | current, word :: rest =>
    if w (joinWord current word) < maxW then
      wrapGo w maxW (joinWord current word) rest
    else
      current :: wrapGo w maxW word rest

/-- Wrap a word list starting from the empty current line. -/
def wrapWords (w : String → ℚ) (maxW : ℚ) (words : List String) : List String :=
  wrapGo w maxW "" words

/-- Python `title.split()`: split on whitespace runs, dropping empties. -/
def wordsCore : List Char → List Char → List String
  | [], acc => if acc = [] then [] else [acc.reverse.asString]
  | c :: cs, acc =>
    if c.isWhitespace then
      if acc = [] then wordsCore cs [] else acc.reverse.asString :: wordsCore cs []
    else wordsCore cs (c :: acc)

def pyWords (s : String) : List String :=
  wordsCore s.data []

/-- The wrapped title lines (lines 119-131): greedy wrap of `title.split()`
against 80% of the page width, measured at Helvetica-Bold 36. -/
def titleLines (env : CoverEnv) (title : String) : List String :=
  wrapWords (fun s => env.stringWidth s "Helvetica-Bold" 36) (pageW * 0.8) (pyWords title)

/-- The drawing loop for the wrapped lines (lines 132-135): first baseline
2.5 inches below the top edge, each next line `1.2 * font size` lower. -/
def drawLinesAt (x step : ℚ) : ℚ → List String → List DrawOp
  | _, [] => []
  | y, l :: ls => DrawOp.textL "Helvetica-Bold" 36 "white" x y l :: drawLinesAt x step (y - step) ls

def titleOps (env : CoverEnv) (title : String) : List DrawOp :=
  drawLinesAt (inch * 0.5) (36 * 1.2) (pageH - inch * 2.5) (titleLines env title)

/-- Vertical position left behind by the title loop. -/
def yAfterTitle (env : CoverEnv) (title : String) : ℚ :=
  pageH - inch * 2.5 - (titleLines env title).length * (36 * 1.2)

/-- The "Prepared for ..." subtitle (lines 137-143), only for a non-empty
client name. -/
def preparedOps (env : CoverEnv) (clientName : String) (yPos : ℚ) : List DrawOp :=
  if clientName = "" then []
  else [DrawOp.textL "Helvetica" 18 "white" (inch * 0.5) (yPos - 10)
    ("Prepared for " ++ clientName)]

/-! ### Date parsing and formatting (src/app.py lines 145-156) -/

/-- Numeric value of an ASCII digit. -/
def digitVal (c : Char) : Option Nat :=
  if 48 ≤ c.toNat ∧ c.toNat ≤ 57 then some (c.toNat - 48) else none

def isLeapYear (y : Nat) : Bool :=
  y % 4 = 0 && (y % 100 ≠ 0 || y % 400 = 0)

def daysInMonth (y m : Nat) : Nat :=
  if m = 2 then (if isLeapYear y then 29 else 28)
  else if m = 4 ∨ m = 6 ∨ m = 9 ∨ m = 11 then 30
  else 31

/-- Day field and end of input: the strptime pattern
`3[01]|[12]\d|0[1-9]|[1-9]` followed by end of string, i.e. a one- or
two-digit value in 1..31 consuming the whole remainder. -/
def parseDayEnd (l : List Char) : Option Nat :=
  match l with
  | [c1] => match digitVal c1 with
    | some d => if 1 ≤ d then some d else none
    | none => none
  | [c1, c2] =>
    match digitVal c1, digitVal c2 with
    | some d1, some d2 =>
      let v := d1 * 10 + d2
      if 1 ≤ v ∧ v ≤ 31 then some v else none
    | _, _ => none
  | _ => none

/-- Month field: the strptime pattern `1[0-2]|0[1-9]|[1-9]` followed by a
literal `-`; the two-digit branch is preferred, falling back to one digit
when the dash does not follow. -/
def parseMonthDash (l : List Char) : Option (Nat × List Char) :=
  match l with
  | c1 :: c2 :: '-' :: rest =>
    match digitVal c1, digitVal c2 with
    | some d1, some d2 =>
      let v := d1 * 10 + d2
      if 1 ≤ v ∧ v ≤ 12 then some (v, rest)
      else none
    | _, _ => none
  | c1 :: '-' :: rest =>
    match digitVal c1 with
    | some d => if 1 ≤ d then some (d, rest) else none
    | none => none
  | _ => none

/-- Models `datetime.strptime(date_str, '%Y-%m-%d')`: four year digits, a
dash, a 1..12 month, a dash, a 1..31 day filling the rest of the string,
then calendar validation by the `datetime` constructor (`MINYEAR = 1`,
day bounded by the month length). -/
def parseDate (s : String) : Option (Nat × Nat × Nat) :=
  match s.data with
  | y1 :: y2 :: y3 :: y4 :: '-' :: rest =>
    match digitVal y1, digitVal y2, digitVal y3, digitVal y4 with
    | some a, some b, some c, some d =>
      let y := ((a * 10 + b) * 10 + c) * 10 + d
      match parseMonthDash rest with
      | some (m, rest2) =>
        match parseDayEnd rest2 with
        | some day =>
          if 1 ≤ y ∧ day ≤ daysInMonth y m then some (y, m, day) else none
        | none => none
      | none => none
    | _, _, _, _ => none
  | _ => none

def monthName : Nat → String
  | 1 => "January"
  | 2 => "February"
  | 3 => "March"
  | 4 => "April"
  | 5 => "May"
  | 6 => "June"
  | 7 => "July"
  | 8 => "August"
  | 9 => "September"
  | 10 => "October"
  | 11 => "November"
  | 12 => "December"
  | _ => ""

/-- The try/except of lines 150-154: `strftime('%B %Y')` on success, the raw
string on parse failure. -/
def formatDate (s : String) : String :=
  match parseDate s with
  | some (y, m, _) => monthName m ++ " " ++ Nat.repr y
  | none => s

/-- Date text (lines 145-156): right-aligned at the right margin, 30% page
height, Helvetica 16 in the primary brand colour; nothing for an empty
date string. -/
def dateOps (env : CoverEnv) (dateStr : String) : List DrawOp :=
  if dateStr = "" then []
  else [DrawOp.textR "Helvetica" 16 env.brandBlue (pageW - inch * 0.5) (pageH * 0.3)
    (formatDate dateStr)]

/-- The "Presented to" block (lines 161-166), only for a non-empty client. -/
def presentedToOps (env : CoverEnv) (clientName : String) : List DrawOp :=
  if clientName = "" then []
  else [DrawOp.textL "Helvetica" 12 env.brandBlue (inch * 0.5) (inch * 0.7) "Presented to",
    DrawOp.textL "Helvetica-Bold" 16 "black" (inch * 0.5) (inch * 0.5) clientName]

/-- The "Presented by" block (lines 167-174), only for a non-empty author. -/
def presentedByOps (env : CoverEnv) (createdBy : String) : List DrawOp :=
  if createdBy = "" then []
  else [DrawOp.textR "Helvetica" 12 env.brandBlue (pageW - inch * 0.5) (inch * 0.7) "Presented by",
    DrawOp.textR "Helvetica-Bold" 16 "black" (pageW - inch * 0.5) (inch * 0.5) createdBy]

/-- The full drawing sequence of `generate_cover_pdf` (lines 43-178). -/
def generate_cover_pdf (env : CoverEnv) (title clientName createdBy dateStr : String) :
    List DrawOp :=
  bgOps env ++ bannerOps env ++ accentOps env ++ logoOps env ++ titleOps env title ++
    preparedOps env clientName (yAfterTitle env title) ++ dateOps env dateStr ++
    presentedToOps env clientName ++ presentedByOps env createdBy

/-- JSON body of `/generate_cover`; `none` is an absent key. -/
structure CoverReq where
  title : Option String
  client_name : Option String
  created_by : Option String
  date : Option String

/-- The `/generate_cover` handler (src/app.py lines 213-222):
`data.get('title', 'Proposal')` and empty-string defaults for the other
fields, then the drawing routine. -/
def generate_cover (env : CoverEnv) (req : CoverReq) : List DrawOp :=
  generate_cover_pdf env (req.title.getD "Proposal") (req.client_name.getD "")
    (req.created_by.getD "") (req.date.getD "")

/-! ### Export merger (src/app.py lines 225-254)

The filesystem the handler reads is abstracted to two lookups keyed by the
caller-given filename: `none` models a path for which `os.path.exists` is
false, `some none` a file `PdfReader` raises on, and `some (some pages)` a
parseable file with the given page list (pages abstract over `α`). -/

structure ExportFs (α : Type) where
  cover : String → Option (Option (List α))
  modules : String → Option (Option (List α))

/-- Pages contributed by the optional cover (lines 231-239): gated by
Python truthiness of `cover`, the existence check, and the try/except. -/
def coverPages {α : Type} (fs : ExportFs α) (cover : Option String) : List α :=
  match cover with
  | none => []
  | some c =>
    if c = "" then []
    else
      match fs.cover c with
      | none => []
      | some none => []
      | some (some ps) => ps

/-- Pages contributed by one module entry (lines 240-248): the file must
exist, the name must end in `.pdf` case-insensitively, and parse failure is
caught and skipped. -/
def moduleContribution {α : Type} (fs : ExportFs α) (f : String) : List α :=
  match fs.modules f with
  | none => []
  | some parsed =>
    if endsWithPdf f then
      match parsed with
      | none => []
      | some ps => ps
    else []

/-- Page sequence of the exported document. -/
def export_pdf {α : Type} (fs : ExportFs α) (files : List String)
    (cover : Option String) : List α :=
  coverPages fs cover ++ files.flatMap (moduleContribution fs)

/-- Generated export filename (line 250). -/
def exportName (ts : String) : String :=
  "proposal_" ++ ts ++ ".pdf"

/-- Full result of the `/export` handler: the written page sequence and the
returned filename — a file is written and a name returned on every run. -/
def exportResult {α : Type} (fs : ExportFs α) (files : List String)
    (cover : Option String) (ts : String) : List α × String :=
  (export_pdf fs files cover, exportName ts)

/-! ### Path resolution for module reads (src/app.py lines 240-246)

`path = os.path.join(UPLOAD_FOLDER, filename)` performs no sanitisation, so
the operating system resolves any `..` components of the caller-supplied
filename when the file is opened.  Paths are modelled as component lists
(the modules area is `base`); resolution folds away `.`, empty and `..`
components exactly as the kernel does below the root. -/

def resolveStep (acc : List (List Char)) (c : List Char) : List (List Char) :=
  if c = [] ∨ c = ['.'] then acc
  else if c = ['.', '.'] then acc.dropLast
  else acc ++ [c]

def resolvePath (base : List (List Char)) (comps : List (List Char)) : List (List Char) :=
  comps.foldl resolveStep base

def pathComponents (s : String) : List (List Char) :=
  s.data.splitOn '/'

/-- The resolved path actually opened for a module entry `fname`:
`os.path.join` discards the base for an absolute filename, otherwise the
filename's components are resolved against the modules directory. -/
def moduleReadPath (base : List (List Char)) (fname : String) : List (List Char) :=
  if fname.data.head? = some '/' then resolvePath [] (pathComponents fname)
  else resolvePath base (pathComponents fname)

/-- The set of resolved paths the export loop reads, given which paths exist
on disk (lines 240-246): a module file is opened when its path exists and
its name passes the `.pdf` check. -/
def moduleReadPaths (base : List (List Char)) (existsP : List (List Char) → Bool)
    (files : List String) : List (List (List Char)) :=
  files.filterMap fun f =>
    let p := moduleReadPath base f
    if existsP p ∧ endsWithPdf f then some p else none

/-! ### Claim theorems -/

/-- C1: the export's page sequence is exactly all cover pages (when the
cover name is given, exists in the covers area and parses) followed by, for
each module filename in caller order that exists, ends in `.pdf`
case-insensitively and parses, that module's pages in order; a 1-page cover
with a 2-page and a 3-page module yields exactly those 6 pages in order. -/
theorem export_page_order :
    (∀ (α : Type) (fs : ExportFs α) (files : List String) (c : String) (cps : List α)
      (pg : String → List α),
      c ≠ "" → fs.cover c = some (some cps) →
      (∀ f ∈ files, fs.modules f = some (some (pg f)) ∧ endsWithPdf f = true) →
      export_pdf fs files (some c) = cps ++ files.flatMap pg)
    ∧ export_pdf
        { cover := fun c => if c = "cover_X.pdf" then some (some [0]) else none,
          modules := fun f =>
            if f = "a.pdf" then some (some [1, 2])
            else if f = "b.pdf" then some (some [3, 4, 5]) else none }
        ["a.pdf", "b.pdf"] (some "cover_X.pdf") = ([0, 1, 2, 3, 4, 5] : List Nat) := by
  constructor
  · intro α fs files c cps pg hc hcov hmods
    unfold export_pdf coverPages
    simp only [hc, if_false, hcov]
    congr 1
    apply List.flatMap_congr
    intro f hf
    rcases hmods f hf with ⟨hm, hpdf⟩
    simp [moduleContribution, hm, hpdf]
  · decide

/-- C1 witness: the general clause applied to the concrete 6-page setup. -/
theorem export_page_order_witness :
    export_pdf
      { cover := fun c => if c = "c.pdf" then some (some [10]) else none,
        modules := fun f => if f = "m.pdf" then some (some [11]) else none }
      ["m.pdf"] (some "c.pdf") = [10] ++ ["m.pdf"].flatMap (fun _ => [11]) :=
  export_page_order.1 Nat
    { cover := fun c => if c = "c.pdf" then some (some [10]) else none,
      modules := fun f => if f = "m.pdf" then some (some [11]) else none }
    ["m.pdf"] "c.pdf" [10] (fun _ => [11]) (by decide) (by decide)
    (by intro f hf; simp at hf; subst hf; exact ⟨by decide, by decide⟩)

/-- C2: a missing or unparseable source (including a missing cover) is
skipped without aborting: dropping such an entry does not change the
result, a file is always produced with the generated `proposal_<ts>.pdf`
name, and an export whose only source is missing yields a zero-page
output. -/
theorem export_skips_bad_sources :
    (∀ (α : Type) (fs : ExportFs α) (xs ys : List String) (b : String)
      (cover : Option String) (ts : String),
      fs.modules b = none ∨ fs.modules b = some none ∨ endsWithPdf b = false →
      exportResult fs (xs ++ b :: ys) cover ts = exportResult fs (xs ++ ys) cover ts)
    ∧ (∀ (α : Type) (fs : ExportFs α) (files : List String) (c : String) (ts : String),
      fs.cover c = none →
      exportResult fs files (some c) ts = exportResult fs files none ts)
    ∧ (∀ (α : Type) (fs : ExportFs α) (files : List String) (cover : Option String)
      (ts : String), (exportResult fs files cover ts).2 = "proposal_" ++ ts ++ ".pdf")
    ∧ exportResult { cover := fun _ => none, modules := fun _ => (none : Option (Option (List Nat))) }
        ["missing.pdf"] none "20240101000000000000" =
        ([], "proposal_20240101000000000000.pdf") := by
  refine ⟨?_, ?_, ?_, ?_⟩
  · intro α fs xs ys b cover ts hb
    have hdrop : moduleContribution fs b = [] := by
      rcases hb with h | h | h
      · simp [moduleContribution, h]
      · simp [moduleContribution, h]
      · unfold moduleContribution
        cases fs.modules b <;> simp [h]
    unfold exportResult export_pdf
    simp [List.flatMap_append, hdrop]
  · intro α fs files c ts hc
    unfold exportResult export_pdf coverPages
    by_cases hce : c = "" <;> simp [hce, hc]
  · intro α fs files cover ts
    rfl
  · decide

/-- C2 witness: the drop clause applied to one missing module. -/
theorem export_skips_bad_sources_witness :
    exportResult { cover := fun _ => none, modules := fun _ => (none : Option (Option (List Nat))) }
        ([] ++ "missing.pdf" :: []) none "t" =
      exportResult { cover := fun _ => none, modules := fun _ => (none : Option (Option (List Nat))) }
        ([] ++ []) none "t" :=
  export_skips_bad_sources.1 Nat
    { cover := fun _ => none, modules := fun _ => none }
    [] [] "missing.pdf" none "t" (Or.inl rfl)

/-- C7: `list_modules` returns exactly the directory entries ending in
`.pdf` case-insensitively, sorted ascending in the code-point order, with
the same result for any listing order; `b.pdf` then `a.pdf` comes back as
`["a.pdf", "b.pdf"]`. -/
theorem list_modules_spec :
    (∀ entries : List String, List.Sorted pyStrLe (list_modules entries))
    ∧ (∀ entries : List String, (list_modules entries).Perm (entries.filter endsWithPdf))
    ∧ (∀ (entries : List String) (x : String),
        x ∈ list_modules entries ↔ x ∈ entries ∧ endsWithPdf x = true)
    ∧ (∀ e₁ e₂ : List String, e₁.Perm e₂ → list_modules e₁ = list_modules e₂)
    ∧ list_modules ["b.pdf", "a.pdf"] = ["a.pdf", "b.pdf"] := by
  have hsorted : ∀ entries : List String, List.Sorted pyStrLe (list_modules entries) :=
    fun entries => (List.sorted_insertionSort pyStrLe entries).filter endsWithPdf
  have hperm : ∀ entries : List String, (list_modules entries).Perm (entries.filter endsWithPdf) :=
    fun entries => (List.perm_insertionSort pyStrLe entries).filter endsWithPdf
  refine ⟨hsorted, hperm, ?_, ?_, ?_⟩
  · intro entries x
    rw [(hperm entries).mem_iff, List.mem_filter]
  · intro e₁ e₂ hp
    refine List.eq_of_perm_of_sorted ?_ (hsorted e₁) (hsorted e₂)
    exact ((hperm e₁).trans (hp.filter endsWithPdf)).trans (hperm e₂).symm
  · decide

/-- C7 witness: order-independence applied to a concrete permutation. -/
theorem list_modules_spec_witness :
    list_modules ["b.pdf", "a.pdf"] = list_modules ["a.pdf", "b.pdf"] :=
  list_modules_spec.2.2.2.1 ["b.pdf", "a.pdf"] ["a.pdf", "b.pdf"]
    (List.Perm.swap "a.pdf" "b.pdf" [])

/-- C8: an upload entry whose name does not end in `.pdf` case-insensitively
is silently skipped — removing it changes neither the stored files nor the
`saved` list — and the other entries of the request are still processed;
uploading only `notes.txt` saves nothing. -/
theorem upload_skips_non_pdf :
    (∀ (sf : String → String) (existing xs ys : List String) (t : String),
      endsWithPdf t = false →
      upload_files sf existing (xs ++ t :: ys) = upload_files sf existing (xs ++ ys))
    ∧ upload_files id ["x.pdf"] ["notes.txt", "y.pdf"] =
        (["x.pdf", "y.pdf"], ["y.pdf"]) := by
  constructor
  · intro sf existing xs ys t ht
    unfold upload_files
    rw [List.foldl_append, List.foldl_append, List.foldl_cons]
    simp [ht]
  · decide

/-- C8 witness: skipping a `.txt` entry at the front of a request. -/
theorem upload_skips_non_pdf_witness :
    upload_files id ["x.pdf"] ([] ++ "notes.txt" :: ["y.pdf"]) =
      upload_files id ["x.pdf"] ([] ++ ["y.pdf"]) :=
  upload_skips_non_pdf.1 id ["x.pdf"] [] ["y.pdf"] "notes.txt" (by decide)

/-- C10: in `/generate_cover` a missing `title` defaults to "Proposal" and
missing `client_name`, `created_by`, `date` default to the empty string,
which drops the "Prepared for" line, the date text, the "Presented to"
block and the "Presented by" block from the drawn page. -/
theorem generate_cover_defaults :
    ∀ (env : CoverEnv) (t c b d : Option String),
      generate_cover env ⟨none, c, b, d⟩ = generate_cover env ⟨some "Proposal", c, b, d⟩
      ∧ generate_cover env ⟨t, none, b, d⟩ = generate_cover env ⟨t, some "", b, d⟩
      ∧ generate_cover env ⟨t, c, none, d⟩ = generate_cover env ⟨t, c, some "", d⟩
      ∧ generate_cover env ⟨t, c, b, none⟩ = generate_cover env ⟨t, c, b, some ""⟩
      ∧ (∀ title createdBy : String,
          generate_cover_pdf env title "" createdBy "" =
            bgOps env ++ bannerOps env ++ accentOps env ++ logoOps env ++
              titleOps env title ++ presentedByOps env createdBy)
      ∧ generate_cover env ⟨none, none, none, none⟩ =
          bgOps env ++ bannerOps env ++ accentOps env ++ logoOps env ++
            titleOps env "Proposal" := by
  intro env t c b d
  have hdrop : ∀ title createdBy : String,
      generate_cover_pdf env title "" createdBy "" =
        bgOps env ++ bannerOps env ++ accentOps env ++ logoOps env ++
          titleOps env title ++ presentedByOps env createdBy := by
    intro title createdBy
    unfold generate_cover_pdf preparedOps dateOps presentedToOps
    simp
  refine ⟨rfl, rfl, rfl, rfl, hdrop, ?_⟩
  show generate_cover_pdf env "Proposal" "" "" "" = _
  rw [hdrop "Proposal" ""]
  unfold presentedByOps
  simp

/-- C3 counterexample: with the modules area at `/srv/app/uploads`, the
caller-supplied module filename `../secret.pdf` passes the `.pdf` check, and
when a file exists at its resolved location the export loop reads
`/srv/app/secret.pdf` — a path outside the modules area.  The claim that no
caller-supplied filename can cause a read outside the area is false. -/
theorem module_read_escape :
    (moduleReadPath (resolvePath [] (pathComponents "/srv/app/uploads")) "../secret.pdf")
      ∈ moduleReadPaths (resolvePath [] (pathComponents "/srv/app/uploads"))
        (fun q => decide
          (q = moduleReadPath (resolvePath [] (pathComponents "/srv/app/uploads")) "../secret.pdf"))
        ["../secret.pdf"]
    ∧ ¬ (resolvePath [] (pathComponents "/srv/app/uploads") <+:
        moduleReadPath (resolvePath [] (pathComponents "/srv/app/uploads")) "../secret.pdf") := by
  decide

/-- C3 amended: a module filename containing no path separator (and passing
the `.pdf` check) always resolves to a file directly inside the modules
area; the boundary fails only for filenames with `/` (in particular `..`
segments), which `export_pdf` does not sanitise. -/
theorem module_read_inside_area (base : List (List Char)) (fname : String)
    (hsep : '/' ∉ fname.data) (hpdf : endsWithPdf fname = true) :
    moduleReadPath base fname = base ++ [fname.data]
    ∧ base <+: moduleReadPath base fname := by
  have hlen : 4 ≤ fname.data.length := by
    have hs : ".pdf".data <:+ lowerData fname := of_decide_eq_true hpdf
    have := hs.length_le
    simpa [lowerData] using this
  have hcomps : pathComponents fname = [fname.data] := by
    unfold pathComponents
    simp only [List.splitOn]
    apply List.splitOnP_eq_single
    intro x hx
    simp only [beq_iff_eq]
    intro hxe
    exact hsep (hxe ▸ hx)
  have hhead : ¬ fname.data.head? = some '/' := by
    cases hd : fname.data with
    | nil => simp
    | cons c cs =>
      simp only [List.head?, Option.some_inj]
      intro hc
      exact hsep (by rw [hd, hc]; exact List.mem_cons_self '/' cs)
  have hstep : resolveStep base fname.data = base ++ [fname.data] := by
    unfold resolveStep
    have h1 : ¬ (fname.data = [] ∨ fname.data = ['.']) := by
      rintro (h | h) <;> rw [h] at hlen <;> simp at hlen
    have h2 : ¬ fname.data = ['.', '.'] := by
      intro h; rw [h] at hlen; simp at hlen
    rw [if_neg h1, if_neg h2]
  have hmain : moduleReadPath base fname = base ++ [fname.data] := by
    unfold moduleReadPath
    rw [if_neg hhead, hcomps]
    show resolveStep base fname.data = _
    exact hstep
  exact ⟨hmain, hmain ▸ ⟨[fname.data], rfl⟩⟩

/-- C3 witness: a plain filename stays inside the modules area. -/
theorem module_read_inside_area_witness :
    moduleReadPath (resolvePath [] (pathComponents "/srv/app/uploads")) "a.pdf" =
      resolvePath [] (pathComponents "/srv/app/uploads") ++ ["a.pdf".data]
    ∧ resolvePath [] (pathComponents "/srv/app/uploads") <+:
        moduleReadPath (resolvePath [] (pathComponents "/srv/app/uploads")) "a.pdf" :=
  module_read_inside_area (resolvePath [] (pathComponents "/srv/app/uploads")) "a.pdf"
    (by decide) (by decide)

/-- C6 counterexample: the logo scale `min(max_w/w, max_h/h)` is not capped
at 1, so a 10×10 logo is drawn at 118.8×118.8 points — enlarged, refuting
the claim that a logo smaller than the box is never enlarged. -/
theorem logo_upscale :
    logoDrawnW 10 10 = 118.8 ∧ logoDrawnH 10 10 = 118.8 ∧ (10 : ℚ) < logoDrawnH 10 10 := by
  refine ⟨?_, ?_, ?_⟩ <;>
    norm_num [logoDrawnW, logoDrawnH, logoScale, pageW, pageH, min_def]

/-- C6 amended: the logo is drawn scaled by `min(max_w/w, max_h/h)` so that
it fits within the 20% page width × 15% page height box with its aspect
ratio preserved; the factor is not capped at 1, so a logo smaller than the
box is scaled up until it meets the box. -/
theorem logo_fits_box (lw lh : ℚ) (hw : 0 < lw) (hh : 0 < lh) :
    logoDrawnW lw lh ≤ pageW * 0.2 ∧ logoDrawnH lw lh ≤ pageH * 0.15
    ∧ logoDrawnW lw lh * lh = logoDrawnH lw lh * lw := by
  refine ⟨?_, ?_, ?_⟩
  · calc lw * logoScale lw lh ≤ lw * (pageW * 0.2 / lw) :=
          mul_le_mul_of_nonneg_left (min_le_left _ _) hw.le
    _ = pageW * 0.2 := by field_simp
  · calc lh * logoScale lw lh ≤ lh * (pageH * 0.15 / lh) :=
          mul_le_mul_of_nonneg_left (min_le_right _ _) hh.le
    _ = pageH * 0.15 := by field_simp
  · unfold logoDrawnW logoDrawnH
    ring

/-- C6 witness: the amended bound applied to a 10×10 logo. -/
theorem logo_fits_box_witness :
    logoDrawnW 10 10 ≤ pageW * 0.2 ∧ logoDrawnH 10 10 ≤ pageH * 0.15
    ∧ logoDrawnW 10 10 * 10 = logoDrawnH 10 10 * 10 :=
  logo_fits_box 10 10 (by norm_num) (by norm_num)

/-- C9: a non-empty date string is drawn right-aligned at the right margin
at 30% page height in the primary brand colour; the text is "Month YYYY"
when the string parses as `YYYY-MM-DD` and the raw string otherwise; an
empty date string draws nothing. -/
theorem date_rendering :
    (∀ env : CoverEnv, dateOps env "" = [])
    ∧ (∀ (env : CoverEnv) (s : String), s ≠ "" →
        dateOps env s = [DrawOp.textR "Helvetica" 16 env.brandBlue
          (pageW - inch * 0.5) (pageH * 0.3) (formatDate s)])
    ∧ (∀ (s : String) (y m d : Nat), parseDate s = some (y, m, d) →
        formatDate s = monthName m ++ " " ++ Nat.repr y)
    ∧ (∀ s : String, parseDate s = none → formatDate s = s)
    ∧ formatDate "2024-03-01" = "March 2024"
    ∧ formatDate "not a date" = "not a date"
    ∧ parseDate "2024-02-30" = none := by
  refine ⟨?_, ?_, ?_, ?_, ?_, ?_, ?_⟩
  · intro env; rfl
  · intro env s hs
    unfold dateOps
    rw [if_neg hs]
  · intro s y m d hp
    unfold formatDate
    rw [hp]
  · intro s hp
    unfold formatDate
    rw [hp]
  · decide
  · decide
  · decide

/-- C9 witness: the drawing clause and the parse clause at concrete data. -/
theorem date_rendering_witness :
    dateOps ⟨none, none, fun _ _ _ => 0, "#0084a9", "#fc9a2d", "#f7f7f7"⟩ "2024-03-01" =
      [DrawOp.textR "Helvetica" 16 "#0084a9" (pageW - inch * 0.5) (pageH * 0.3)
        (formatDate "2024-03-01")]
    ∧ formatDate "2024-03-01" = monthName 3 ++ " " ++ Nat.repr 2024 :=
  ⟨date_rendering.2.1 ⟨none, none, fun _ _ _ => 0, "#0084a9", "#fc9a2d", "#f7f7f7"⟩
      "2024-03-01" (by decide),
   date_rendering.2.2.1 "2024-03-01" 2024 3 1 (by decide)⟩

theorem seq_exists_free (existing : List String) (filename : String) :
    ∃ k, seqFrom (pySplitext filename).1 (pySplitext filename).2 1 filename k ∉ existing := by
  rcases exists_free_index existing
      (seqFrom (pySplitext filename).1 (pySplitext filename).2 1 filename)
      (seqFrom_inj (pySplitext_append filename)) with ⟨k, _, hfree⟩
  exact ⟨k, hfree⟩

theorem seq_pos (base ext f : String) (m : Nat) (hm : 1 ≤ m) :
    seqFrom base ext 1 f m = cand base ext m := by
  cases m with
  | zero => omega
  | succ j =>
    show cand base ext (1 + j) = cand base ext (j + 1)
    congr 1
    omega

/-- C4: on a name collision the store inserts `_<n>` before the extension
with `n` starting at 1 and incrementing until the name is unused, writes
under that name, and never overwrites an existing file; a collision-free
name is kept as-is, and uploading `a.pdf` three times stores `a.pdf`,
`a_1.pdf`, `a_2.pdf`. -/
theorem upload_collision_suffix :
    (∀ (existing : List String) (filename : String),
      unique_name existing filename ∉ existing)
    ∧ (∀ (existing : List String) (filename : String), filename ∉ existing →
        unique_name existing filename = filename)
    ∧ (∀ (existing : List String) (filename : String), filename ∈ existing →
        ∃ n, 1 ≤ n
          ∧ unique_name existing filename =
              cand (pySplitext filename).1 (pySplitext filename).2 n
          ∧ cand (pySplitext filename).1 (pySplitext filename).2 n ∉ existing
          ∧ ∀ m, 1 ≤ m → m < n →
              cand (pySplitext filename).1 (pySplitext filename).2 m ∈ existing)
    ∧ upload_files id [] ["a.pdf", "a.pdf", "a.pdf"] =
        (["a.pdf", "a_1.pdf", "a_2.pdf"], ["a.pdf", "a_1.pdf", "a_2.pdf"]) := by
  refine ⟨?_, ?_, ?_, ?_⟩
  · intro existing filename
    have H := seq_exists_free existing filename
    rw [unique_name_eq_find existing filename H]
    exact Nat.find_spec H
  · intro existing filename hf
    have H := seq_exists_free existing filename
    rw [unique_name_eq_find existing filename H]
    have h0 : Nat.find H = 0 := Nat.le_zero.mp (Nat.find_min' H hf)
    rw [h0]
    rfl
  · intro existing filename hf
    have H := seq_exists_free existing filename
    have hne : Nat.find H ≠ 0 := by
      intro h0
      have hspec := Nat.find_spec H
      rw [h0] at hspec
      exact hspec hf
    refine ⟨Nat.find H, by omega, ?_, ?_, ?_⟩
    · rw [unique_name_eq_find existing filename H,
        seq_pos (pySplitext filename).1 (pySplitext filename).2 filename (Nat.find H) (by omega)]
    · rw [← seq_pos (pySplitext filename).1 (pySplitext filename).2 filename (Nat.find H) (by omega)]
      exact Nat.find_spec H
    · intro m hm hmn
      have hmin := Nat.find_min H hmn
      rw [seq_pos (pySplitext filename).1 (pySplitext filename).2 filename m hm] at hmin
      exact not_not.mp hmin
  · decide

/-- C4 witness: the collision clause at a concrete one-element store. -/
theorem upload_collision_suffix_witness :
    ("a.pdf" : String) ∈ ["a.pdf"]
    ∧ ∃ n, 1 ≤ n
        ∧ unique_name ["a.pdf"] "a.pdf" = cand (pySplitext "a.pdf").1 (pySplitext "a.pdf").2 n
        ∧ cand (pySplitext "a.pdf").1 (pySplitext "a.pdf").2 n ∉ ["a.pdf"]
        ∧ ∀ m, 1 ≤ m → m < n →
            cand (pySplitext "a.pdf").1 (pySplitext "a.pdf").2 m ∈ ["a.pdf"] :=
  ⟨by decide, upload_collision_suffix.2.2.1 ["a.pdf"] "a.pdf" (by decide)⟩

/-! ### Word-wrap lemmas for the title claim -/

theorem joinWord_ne_empty {current : String} (h : current ≠ "") (word : String) :
    joinWord current word ≠ "" := by
  unfold joinWord
  rw [if_neg h]
  intro he
  have hl := congrArg String.length he
  rw [String.length_append, String.length_append] at hl
  have h1 : (" " : String).length = 1 := rfl
  have h2 : ("" : String).length = 0 := rfl
  omega

theorem wrapGo_length_pos (w : String → ℚ) (maxW : ℚ) :
    ∀ (words : List String) (current : String), current ≠ "" →
      1 ≤ (wrapGo w maxW current words).length := by
  intro words
  induction words with
  | nil =>
    intro current h
    unfold wrapGo
    rw [if_neg h]
    exact Nat.le_refl 1
  | cons word rest ih =>
    intro current h
    unfold wrapGo
    by_cases htest : w (joinWord current word) < maxW
    · rw [if_pos htest]
      exact ih (joinWord current word) (joinWord_ne_empty h word)
    · rw [if_neg htest]
      simp

theorem wrapGo_all_fits_or_two (w : String → ℚ) (maxW : ℚ) :
    ∀ (words : List String) (current : String), current ≠ "" →
      (∀ x ∈ words, x ≠ "") →
      (wrapGo w maxW current words = [words.foldl joinWord current]
        ∧ (words = [] ∨ w (words.foldl joinWord current) < maxW))
      ∨ 2 ≤ (wrapGo w maxW current words).length := by
  intro words
  induction words with
  | nil =>
    intro current h _
    left
    constructor
    · unfold wrapGo
      rw [if_neg h]
      rfl
    · exact Or.inl rfl
  | cons word rest ih =>
    intro current h hws
    unfold wrapGo
    by_cases htest : w (joinWord current word) < maxW
    · rw [if_pos htest]
      have hjw : joinWord current word ≠ "" := joinWord_ne_empty h word
      have hrest : ∀ x ∈ rest, x ≠ "" := fun x hx => hws x (List.mem_cons_of_mem word hx)
      rcases ih (joinWord current word) hjw hrest with ⟨heq, hcond⟩ | htwo
      · left
        refine ⟨by rw [List.foldl_cons]; exact heq, Or.inr ?_⟩
        rw [List.foldl_cons]
        rcases hcond with hnil | hlt
        · rw [hnil]
          simpa [hnil] using htest
        · exact hlt
      · right
        exact htwo
    · rw [if_neg htest]
      right
      have hword : word ≠ "" := hws word (List.mem_cons_self word rest)
      have := wrapGo_length_pos w maxW rest word hword
      simp only [List.length_cons]
      omega

theorem wrap_overflow_two_lines (w : String → ℚ) (maxW : ℚ) (words : List String)
    (hws : ∀ x ∈ words, x ≠ "") (hne : words ≠ [])
    (hover : maxW ≤ w (words.foldl joinWord "")) :
    2 ≤ (wrapWords w maxW words).length := by
  cases words with
  | nil => exact absurd rfl hne
  | cons word rest =>
    have hword : word ≠ "" := hws word (List.mem_cons_self word rest)
    have hrest : ∀ x ∈ rest, x ≠ "" := fun x hx => hws x (List.mem_cons_of_mem word hx)
    have hjw : joinWord "" word = word := by unfold joinWord; rw [if_pos rfl]
    unfold wrapWords wrapGo
    by_cases htest : w (joinWord "" word) < maxW
    · rw [if_pos htest]
      rcases wrapGo_all_fits_or_two w maxW rest (joinWord "" word)
          (hjw ▸ hword) hrest with ⟨heq, hcond⟩ | htwo
      · exfalso
        have htot : (word :: rest).foldl joinWord "" = rest.foldl joinWord (joinWord "" word) :=
          List.foldl_cons rest ""
        rcases hcond with hnil | hlt
        · subst hnil
          rw [htot] at hover
          exact absurd htest (not_lt.mpr hover)
        · rw [htot] at hover
          exact absurd hlt (not_lt.mpr hover)
      · exact htwo
    · rw [if_neg htest]
      have := wrapGo_length_pos w maxW rest word hword
      simp only [List.length_cons]
      omega

/-! ### Word-level view of the wrap: lines partition the input words -/

/-- The string a committed line would render for a given word group. -/
def lineOfWords : List String → String
  | [] => ""
  | x :: xs => xs.foldl (fun a b => a ++ " " ++ b) x

/-- Word-level mirror of `wrapGo`: group words instead of joining them. -/
def wrapGoW (w : String → ℚ) (maxW : ℚ) : List String → List String → List (List String)
  | cur, [] => if cur = [] then [] else [cur]
  | cur, word :: rest =>
    if w (lineOfWords (cur ++ [word])) < maxW then wrapGoW w maxW (cur ++ [word]) rest
    else cur :: wrapGoW w maxW [word] rest

theorem lineOfWords_snoc (cur : List String) (word : String)
    (hcur : cur = [] ∨ lineOfWords cur ≠ "") :
    lineOfWords (cur ++ [word]) = joinWord (lineOfWords cur) word := by
  rcases hcur with rfl | hne
  · show lineOfWords [word] = joinWord "" word
    unfold joinWord
    rw [if_pos rfl]
    rfl
  · cases cur with
    | nil => exact absurd rfl hne
    | cons x xs =>
      show (xs ++ [word]).foldl (fun a b => a ++ " " ++ b) x = joinWord (lineOfWords (x :: xs)) word
      rw [List.foldl_append]
      unfold joinWord
      rw [if_neg hne]
      rfl

theorem foldl_space_length (xs : List String) : ∀ x : String,
    x.length ≤ (xs.foldl (fun a b => a ++ " " ++ b) x).length := by
  induction xs with
  | nil => intro x; exact Nat.le_refl _
  | cons y ys ih =>
    intro x
    have h1 := ih (x ++ " " ++ y)
    have h2 : (x ++ " " ++ y).length = x.length + 1 + y.length := by
      rw [String.length_append, String.length_append]
      have hsp : (" " : String).length = 1 := rfl
      omega
    rw [List.foldl_cons]
    omega

theorem string_ne_empty_length {x : String} (h : x ≠ "") : 1 ≤ x.length := by
  have hd : x.data ≠ [] := fun hnil => h (String.ext (by simp [hnil]))
  have := List.length_pos.mpr hd
  exact this

theorem lineOfWords_ne_empty {cur : List String} (hne : cur ≠ [])
    (hws : ∀ x ∈ cur, x ≠ "") : lineOfWords cur ≠ "" := by
  cases cur with
  | nil => exact absurd rfl hne
  | cons x xs =>
    have hx : 1 ≤ x.length := string_ne_empty_length (hws x (List.mem_cons_self x xs))
    have hgrow := foldl_space_length xs x
    intro hcon
    have hl : (lineOfWords (x :: xs)).length = (xs.foldl (fun a b => a ++ " " ++ b) x).length := rfl
    rw [hcon] at hl
    have h0 : ("" : String).length = 0 := rfl
    rw [h0] at hl
    omega

theorem wrapGoW_sim (w : String → ℚ) (maxW : ℚ) :
    ∀ (words cur : List String), (∀ x ∈ words, x ≠ "") → (∀ x ∈ cur, x ≠ "") →
      wrapGo w maxW (lineOfWords cur) words = (wrapGoW w maxW cur words).map lineOfWords := by
  intro words
  induction words with
  | nil =>
    intro cur _ hcur
    unfold wrapGo wrapGoW
    by_cases hc : cur = []
    · subst hc
      rw [if_pos (show lineOfWords [] = "" from rfl), if_pos (show ([] : List String) = [] from rfl)]
      rfl
    · rw [if_neg (lineOfWords_ne_empty hc hcur), if_neg hc]
      rfl
  | cons word rest ih =>
    intro cur hws hcur
    have hword : word ≠ "" := hws word (List.mem_cons_self word rest)
    have hrest : ∀ x ∈ rest, x ≠ "" := fun x hx => hws x (List.mem_cons_of_mem word hx)
    have hor : cur = [] ∨ lineOfWords cur ≠ "" := by
      by_cases hc : cur = []
      · exact Or.inl hc
      · exact Or.inr (lineOfWords_ne_empty hc hcur)
    have hsnoc := lineOfWords_snoc cur word hor
    unfold wrapGo wrapGoW
    rw [← hsnoc]
    by_cases htest : w (lineOfWords (cur ++ [word])) < maxW
    · rw [if_pos htest, if_pos htest]
      have hcur' : ∀ x ∈ cur ++ [word], x ≠ "" := by
        intro x hx
        rcases List.mem_append.mp hx with h | h
        · exact hcur x h
        · rw [List.mem_singleton.mp h]; exact hword
      exact ih (cur ++ [word]) hrest hcur'
    · rw [if_neg htest, if_neg htest]
      have hone : ∀ x ∈ [word], x ≠ "" := by
        intro x hx
        rw [List.mem_singleton.mp hx]; exact hword
      have hw1 : lineOfWords [word] = word := rfl
      have hsim := ih [word] hrest hone
      rw [hw1] at hsim
      rw [List.map_cons, hsim]

theorem wrapGoW_flatten (w : String → ℚ) (maxW : ℚ) :
    ∀ (words cur : List String), (wrapGoW w maxW cur words).flatten = cur ++ words := by
  intro words
  induction words with
  | nil =>
    intro cur
    unfold wrapGoW
    by_cases hc : cur = []
    · subst hc; rw [if_pos rfl]; rfl
    · rw [if_neg hc]; simp
  | cons word rest ih =>
    intro cur
    unfold wrapGoW
    by_cases htest : w (lineOfWords (cur ++ [word])) < maxW
    · rw [if_pos htest, ih (cur ++ [word])]
      simp
    · rw [if_neg htest]
      simp only [List.flatten_cons, ih [word]]
      simp

theorem wordsCore_ne_empty : ∀ (l acc : List Char) (x : String),
    x ∈ wordsCore l acc → x ≠ "" := by
  intro l
  induction l with
  | nil =>
    intro acc x hx
    unfold wordsCore at hx
    by_cases hc : acc = []
    · simp [hc] at hx
    · rw [if_neg hc] at hx
      rw [List.mem_singleton.mp hx]
      intro hcon
      have := congrArg String.data hcon
      simp [List.asString] at this
      exact hc this
  | cons c cs ih =>
    intro acc x hx
    unfold wordsCore at hx
    by_cases hwsp : c.isWhitespace
    · rw [if_pos hwsp] at hx
      by_cases hc : acc = []
      · rw [if_pos hc] at hx
        exact ih [] x hx
      · rw [if_neg hc] at hx
        rcases List.mem_cons.mp hx with heq | hmem
        · rw [heq]
          intro hcon
          have := congrArg String.data hcon
          simp [List.asString] at this
          exact hc this
        · exact ih [] x hmem
    · rw [if_neg hwsp] at hx
      exact ih (c :: acc) x hx

theorem drawLinesAt_eq_mapIdx (x step : ℚ) :
    ∀ (lines : List String) (y : ℚ),
      drawLinesAt x step y lines = lines.mapIdx
        (fun i l => DrawOp.textL "Helvetica-Bold" 36 "white" x (y - i * step) l) := by
  intro lines
  induction lines with
  | nil => intro y; rfl
  | cons l ls ih =>
    intro y
    unfold drawLinesAt
    rw [List.mapIdx_cons, ih (y - step)]
    have hzero : y - (0 : ℕ) * step = y := by push_cast; ring
    rw [hzero]
    congr 1
    have hfun : (fun (i : ℕ) (l : String) =>
        DrawOp.textL "Helvetica-Bold" 36 "white" x (y - step - i * step) l) =
        (fun (i : ℕ) (l : String) =>
          DrawOp.textL "Helvetica-Bold" 36 "white" x (y - (i + 1 : ℕ) * step) l) := by
      funext i l
      congr 1
      push_cast
      ring
    rw [hfun]

/-- C5: the title wrap is greedy — words accumulate while the measured
width stays below the threshold, an overflow commits the current line and
restarts from the overflowing word, the final partial line is committed
(so the produced lines partition the input words in order) — a title whose
full rendered width reaches the threshold wraps to at least two lines, and
the lines are drawn left-aligned from 2.5 inches below the top edge, each
subsequent line `1.2 ×` the 36-point font size lower. -/
theorem title_wrap_greedy :
    (∀ (w : String → ℚ) (maxW : ℚ) (current word : String) (rest : List String),
      w (joinWord current word) < maxW →
      wrapGo w maxW current (word :: rest) = wrapGo w maxW (joinWord current word) rest)
    ∧ (∀ (w : String → ℚ) (maxW : ℚ) (current word : String) (rest : List String),
      ¬ w (joinWord current word) < maxW →
      wrapGo w maxW current (word :: rest) = current :: wrapGo w maxW word rest)
    ∧ (∀ (w : String → ℚ) (maxW : ℚ) (current : String), current ≠ "" →
      wrapGo w maxW current [] = [current])
    ∧ (∀ (w : String → ℚ) (maxW : ℚ) (words : List String), (∀ x ∈ words, x ≠ "") →
      wrapWords w maxW words = (wrapGoW w maxW [] words).map lineOfWords
      ∧ (wrapGoW w maxW [] words).flatten = words)
    ∧ (∀ (w : String → ℚ) (maxW : ℚ) (words : List String), (∀ x ∈ words, x ≠ "") →
      words ≠ [] → maxW ≤ w (words.foldl joinWord "") →
      2 ≤ (wrapWords w maxW words).length)
    ∧ (∀ (title x : String), x ∈ pyWords title → x ≠ "")
    ∧ (∀ (env : CoverEnv) (title : String),
      titleOps env title = (titleLines env title).mapIdx
        (fun i line => DrawOp.textL "Helvetica-Bold" 36 "white" (inch * 0.5)
          (pageH - inch * 2.5 - i * (36 * 1.2)) line)) := by
  refine ⟨?_, ?_, ?_, ?_, wrap_overflow_two_lines, ?_, ?_⟩
  · intro w maxW current word rest h
    show (if w (joinWord current word) < maxW then wrapGo w maxW (joinWord current word) rest
      else current :: wrapGo w maxW word rest) = _
    rw [if_pos h]
  · intro w maxW current word rest h
    show (if w (joinWord current word) < maxW then wrapGo w maxW (joinWord current word) rest
      else current :: wrapGo w maxW word rest) = _
    rw [if_neg h]
  · intro w maxW current h
    show (if current = "" then [] else [current]) = _
    rw [if_neg h]
  · intro w maxW words hws
    refine ⟨?_, wrapGoW_flatten w maxW words []⟩
    have := wrapGoW_sim w maxW words [] hws (by intro x hx; simp at hx)
    simpa [wrapWords, lineOfWords] using this
  · intro title x hx
    exact wordsCore_ne_empty title.data [] x hx
  · intro env title
    exact drawLinesAt_eq_mapIdx (inch * 0.5) (36 * 1.2) (titleLines env title)
      (pageH - inch * 2.5)

/-- C5 witness: the two-line clause and the partition clause at concrete
words whose joined width meets the threshold. -/
theorem title_wrap_greedy_witness :
    2 ≤ (wrapWords (fun _ => (6 : ℚ)) 6 ["aa", "bb"]).length
    ∧ wrapWords (fun _ => (6 : ℚ)) 6 ["aa", "bb"] =
        (wrapGoW (fun _ => (6 : ℚ)) 6 [] ["aa", "bb"]).map lineOfWords :=
  ⟨title_wrap_greedy.2.2.2.2.1 (fun _ => (6 : ℚ)) 6 ["aa", "bb"]
      (by intro x hx; simp at hx; rcases hx with rfl | rfl <;> decide)
      (by decide) (le_refl 6),
   (title_wrap_greedy.2.2.2.1 (fun _ => (6 : ℚ)) 6 ["aa", "bb"]
      (by intro x hx; simp at hx; rcases hx with rfl | rfl <;> decide)).1⟩
